import Mathlib

/-!
Verification of the `zagreb-lib` graph engine (`src/lib.rs`).

The Rust `Graph` stores `n_vertices`, `n_edges` and an adjacency map
`HashMap<usize, HashSet<usize>>`.  We embed it as a structure whose adjacency
is a total function `Nat → Finset Nat` (vertices outside the map have the
empty set, matching `edges.get(&v).unwrap_or(&HashSet::new())` usage and the
fact that `new` only inserts keys `0..n`).

Rust `usize` subtraction panics on underflow (debug builds); we model a
possibly-panicking subtraction with `usizeSub : Nat → Nat → Option Nat` and
propagate the `none` ("panic") through `Option`-valued translations of the
functions that can hit it (`is_path`, the k-connectivity checkers,
`find_vertex_disjoint_paths`, the Hamiltonicity/traceability heuristics).

`HashSet` iteration order is unspecified.  Where the result of an operation
is order-independent (degree scans, classifiers, BFS reachability) we use a
deterministic embedding; for the greedy independence-number approximation,
whose *result* depends on tie-breaking of `min_by_key`, we use an inductive
relation `GreedyRun` covering every admissible tie-break; for BFS path
finding inside the disjoint-path search we fix the canonical ascending
neighbour order.
-/

inductive GraphError where
  | invalidVertex : GraphError
  | selfLoop : GraphError
deriving DecidableEq, Repr

structure Graph where
  n_vertices : Nat
  n_edges : Nat
  adj : Nat → Finset Nat

namespace Graph

/-- `Graph::new(n)`: n vertices, every adjacency set empty, 0 edges. -/
def new (n : Nat) : Graph :=
  { n_vertices := n, n_edges := 0, adj := fun _ => ∅ }

/-- The state after inserting a fresh edge: `v` goes into the set of `u`,
`u` into the set of `v`, and `n_edges` is incremented. -/
def insertEdge (g : Graph) (u v : Nat) : Graph :=
  { n_vertices := g.n_vertices
    n_edges := g.n_edges + 1
    adj := fun w =>
      if w = u then insert v (g.adj w)
      else if w = v then insert u (g.adj w)
      else g.adj w }

/-- `Graph::add_edge(u, v)`.  Bounds are checked first, then the self-loop
check, then the already-present no-op case; otherwise both directions are
inserted and `n_edges` is incremented. -/
def add_edge (g : Graph) (u v : Nat) : Except GraphError Graph :=
  if g.n_vertices ≤ u ∨ g.n_vertices ≤ v then
    .error .invalidVertex
  else if u = v then
    .error .selfLoop
  else if v ∈ g.adj u then
    .ok g
  else
    .ok (g.insertEdge u v)

/-- `Graph::degree(v)`. -/
def degree (g : Graph) (v : Nat) : Except GraphError Nat :=
  if g.n_vertices ≤ v then .error .invalidVertex
  else .ok (g.adj v).card

/-- `Graph::first_zagreb_index`: sum over `0..n` of the squared degree. -/
def first_zagreb_index (g : Graph) : Nat :=
  ∑ v ∈ Finset.range g.n_vertices, (g.adj v).card * (g.adj v).card

/-- The list of degrees scanned by `min_degree` / `max_degree`
(`(0..n).map(|v| self.edges.get(&v).unwrap().len())`). -/
def degreeList (g : Graph) : List Nat :=
  (List.range g.n_vertices).map fun v => (g.adj v).card

/-- `Graph::min_degree`: `.min().unwrap_or(0)`. -/
def min_degree (g : Graph) : Nat := g.degreeList.min?.getD 0

/-- `Graph::max_degree`: `.max().unwrap_or(0)`. -/
def max_degree (g : Graph) : Nat := g.degreeList.max?.getD 0

/-- `Graph::vertex_count`. -/
def vertex_count (g : Graph) : Nat := g.n_vertices

/-- `Graph::edge_count`. -/
def edge_count (g : Graph) : Nat := g.n_edges

/-- Rust `usize` subtraction: `none` models the debug-build panic on
underflow. -/
def usizeSub (a b : Nat) : Option Nat :=
  if b ≤ a then some (a - b) else none

/-- Running an `add_edge` call the way the examples/tests do (`unwrap`): a
failed call leaves the graph unchanged. -/
def applyEdge (g : Graph) (u v : Nat) : Graph :=
  match g.add_edge u v with
  | .ok g2 => g2
  | .error _ => g

/-- Build a graph by a sequence of `add_edge` calls starting from `new n`. -/
def buildAux (es : List (Nat × Nat)) (g : Graph) : Graph :=
  es.foldl (fun h p => h.applyEdge p.1 p.2) g

def buildGraph (n : Nat) (es : List (Nat × Nat)) : Graph :=
  buildAux es (new n)

end Graph

/-- The graphs reachable from some `Graph::new(n)` by (successful) `add_edge`
calls; failed calls do not change the graph, so this also covers arbitrary
call sequences. -/
inductive Reachable : Graph → Prop where
  | new (n : Nat) : Reachable (Graph.new n)
  | add (g : Graph) (u v : Nat) (g2 : Graph) :
      Reachable g → g.add_edge u v = .ok g2 → Reachable g2

namespace Graph

/-- `Graph::is_complete`. -/
def is_complete (g : Graph) : Bool :=
  if g.n_vertices ≤ 1 then true
  else
    ((List.range g.n_vertices).all fun v => (g.adj v).card == g.n_vertices - 1) &&
      (g.n_edges == g.n_vertices * (g.n_vertices - 1) / 2)

/-- `Graph::is_cycle` (degree-signature check only, as in the source). -/
def is_cycle (g : Graph) : Bool :=
  g.min_degree == 2 && g.max_degree == 2 && g.n_edges == g.n_vertices

/-- `Graph::is_star`. -/
def is_star (g : Graph) : Bool :=
  if g.n_vertices ≤ 1 then false
  else
    (((List.range g.n_vertices).filter fun v => (g.adj v).card == 1).length
        == g.n_vertices - 1) &&
      (((List.range g.n_vertices).filter fun v =>
          (g.adj v).card == g.n_vertices - 1).length == 1)

/-- `Graph::is_path`.  The first comparison evaluates `n_vertices - 1`, which
underflows (panics) on the 0-vertex graph; `n_vertices - 2` is only reached
when the degree-1 count equals 2 (Rust `&&` short-circuits), hence with
`n ≥ 3` vertices. -/
def is_path (g : Graph) : Option Bool := do
  let nm1 ← usizeSub g.n_vertices 1
  if g.n_edges ≠ nm1 then return false
  let degree_one_count :=
    ((List.range g.n_vertices).filter fun v => (g.adj v).card == 1).length
  let degree_two_count :=
    ((List.range g.n_vertices).filter fun v => (g.adj v).card == 2).length
  if degree_one_count = 2 then do
    let nm2 ← usizeSub g.n_vertices 2
    return degree_two_count == nm2
  else
    return false

/-- The triangle search inside `Graph::is_petersen` (the Rust nested loops
with early break compute exactly this existential). -/
def hasTriangle (g : Graph) : Bool :=
  decide (∃ u ∈ Finset.range g.n_vertices, ∃ v ∈ g.adj u, ∃ w ∈ g.adj u,
    v ≠ w ∧ w ∈ g.adj v)

/-- The 4-cycle search inside `Graph::is_petersen`. -/
def hasSquare (g : Graph) : Bool :=
  decide (∃ u ∈ Finset.range g.n_vertices, ∃ v ∈ g.adj u, ∃ w ∈ g.adj v,
    w ≠ u ∧ ∃ x ∈ g.adj w, x ≠ v ∧ x ≠ u ∧ u ∈ g.adj x)

/-- `Graph::is_petersen`: the 10-vertex 15-edge 3-regular girth-fingerprint
(`has_square` is only computed when no triangle was found). -/
def is_petersen (g : Graph) : Bool :=
  if g.n_vertices ≠ 10 ∨ g.n_edges ≠ 15 then false
  else if g.min_degree ≠ 3 ∨ g.max_degree ≠ 3 then false
  else if g.hasTriangle then false
  else !g.hasSquare

/-- Iterated neighbourhood closure. -/
def bfsReach (W : Nat → Finset Nat) : Nat → Finset Nat → Finset Nat
  | 0, X => X
  | fuel + 1, X => bfsReach W fuel (X ∪ X.biUnion W)

/-- `Graph::is_connected`: the BFS from vertex 0 visits exactly the vertices
reachable from 0, a set we compute as an n-fold neighbourhood closure (every
reachable vertex is at BFS distance below n). -/
def is_connected (g : Graph) : Bool :=
  if g.n_vertices = 0 then true
  else (bfsReach g.adj g.n_vertices {0}).card == g.n_vertices

/-- Path reconstruction in `find_path_in_subgraph`: walk parent pointers from
`t` back to `s`, accumulating vertices (the list is reversed by the caller).
In any state BFS produces, every discovered vertex other than `s` has a
parent, so the `none` branch is dead. -/
def backtrack (parent : Nat → Option Nat) (s : Nat) :
    Nat → Nat → List Nat → List Nat
  | 0, _, acc => acc
  | fuel + 1, cur, acc =>
    if cur = s then acc
    else
      match parent cur with
      | some p => backtrack parent s fuel p (acc ++ [p])
      | none => acc

/-- The BFS queue loop of `Graph::find_path_in_subgraph`.  `HashSet`
iteration order is unspecified in Rust; we fix the canonical ascending
order for neighbour expansion (all vertex ids are below `nv`).  `bt` is the
fuel for path reconstruction. -/
def bfsAux (W : Nat → Finset Nat) (s t bt nv : Nat) :
    Nat → List Nat → Finset Nat → (Nat → Option Nat) → Option (List Nat)
  | 0, _, _, _ => none
  | _ + 1, [], _, _ => none
  | fuel + 1, u :: q, visited, parent =>
    if u = t then
      some ((backtrack parent s bt t [t]).reverse)
    else
      let nbrs := (List.range nv).filter fun v => decide (v ∈ W u ∧ v ∉ visited)
      bfsAux W s t bt nv fuel (q ++ nbrs) (visited ∪ nbrs.toFinset)
        (fun x => if x ∈ nbrs then some u else parent x)

/-- `Graph::find_path_in_subgraph`.  A vertex enters the queue at most once,
so `n_vertices + 1` pops suffice; paths have at most `n_vertices` vertices. -/
def find_path_in_subgraph (g : Graph) (edges : Nat → Finset Nat) (s t : Nat) :
    Option (List Nat) :=
  bfsAux edges s t (g.n_vertices + 1) g.n_vertices (g.n_vertices + 1) [s] {s}
    (fun _ => none)

/-- `Graph::find_path`. -/
def find_path (g : Graph) (s t : Nat) : Option (List Nat) :=
  g.find_path_in_subgraph g.adj s t

/-- Removing all edges incident to `v` from a working copy: the Rust loop
empties the set of `v` and deletes `v` from each of its current neighbours;
on the symmetric working copies arising in the search this equals deleting
`v` from every set. -/
def removeVertex (W : Nat → Finset Nat) (v : Nat) : Nat → Finset Nat :=
  fun x => if x = v then ∅ else (W x).erase v

/-- Internal vertices of a path: `path.iter().skip(1).take(path.len() - 2)`. -/
def internalVertices (p : List Nat) : List Nat :=
  (p.drop 1).take (p.length - 2)

def removeInternal (W : Nat → Finset Nat) (p : List Nat) : Nat → Finset Nat :=
  (internalVertices p).foldl removeVertex W

/-- The repeated find-a-path / remove-internal-vertices loop of
`find_vertex_disjoint_paths` (both the adjacent and the non-adjacent case
run this loop; only the `bound` differs).  The loop stops after counting a
path once `bound ≤ count` or 100 attempts have been made, so 102 iterations
of fuel always suffice. -/
def disjointLoop (g : Graph) (s t bound : Nat) :
    Nat → (Nat → Finset Nat) → Nat → Nat → Nat
  | 0, _, count, _ => count
  | fuel + 1, W, count, attempts =>
    match g.find_path_in_subgraph W s t with
    | none => count
    | some p =>
      let c := count + 1
      if bound ≤ c ∨ 100 ≤ attempts then c
      else disjointLoop g s t bound fuel (removeInternal W p) c (attempts + 1)

/-- `Graph::find_vertex_disjoint_paths`.  (The Rust function also computes a
`common` neighbour set in the adjacent case, but never reads it.) -/
def find_vertex_disjoint_paths (g : Graph) (s t : Nat) : Option Nat := do
  if g.is_complete then
    let nm1 ← usizeSub g.n_vertices 1
    return nm1
  else if g.is_cycle then
    return 2
  else do
    let ip ← g.is_path
    if ip ∧ ((s = 0 ∧ t = g.n_vertices - 1) ∨ (t = 0 ∧ s = g.n_vertices - 1)) then
      return 1
    else if t ∈ g.adj s then
      let modified : Nat → Finset Nat := fun x =>
        if x = s then (g.adj x).erase t
        else if x = t then (g.adj x).erase s
        else g.adj x
      let maxp := min (g.adj s).card (g.adj t).card
      return 1 + disjointLoop g s t (maxp - 1) 102 modified 0 0
    else
      let maxp := min (g.adj s).card (g.adj t).card
      return disjointLoop g s t maxp 102 g.adj 0 0

/-- The pairs `(s, t)` with `s < t < n`, in the order the Rust nested loops
visit them. -/
def vertexPairs (n : Nat) : List (Nat × Nat) :=
  (List.range n).flatMap fun s =>
    ((List.range n).filter fun t => decide (s < t)).map fun t => (s, t)

/-- `Graph::mengers_theorem_check`. -/
def mengers_theorem_check (g : Graph) (k : Nat) : Option Bool :=
  if g.n_vertices ≤ k then some false
  else if g.min_degree < k then some false
  else if k = 1 then some g.is_connected
  else if g.is_cycle then some (decide (k ≤ 2))
  else if g.is_complete then
    (usizeSub g.n_vertices 1).map fun nm1 => decide (k ≤ nm1)
  else
    (vertexPairs g.n_vertices).allM fun p => do
      let d ← g.find_vertex_disjoint_paths p.1 p.2
      return decide (k ≤ d)

/-- `Graph::is_k_connected_exact`. -/
def is_k_connected_exact (g : Graph) (k : Nat) : Option Bool := do
  let nm1 ← usizeSub g.n_vertices 1
  if nm1 < k then return false
  if g.min_degree < k then return false
  if g.is_complete then return decide (k ≤ nm1)
  if k = 1 then return g.is_connected
  g.mengers_theorem_check k

/-- `Graph::is_k_connected_approx`.  The final Zagreb-ratio heuristic is
`f64` arithmetic in Rust; we state it over the reals. -/
noncomputable def is_k_connected_approx (g : Graph) (k : Nat) : Option Bool := do
  let nm1 ← usizeSub g.n_vertices 1
  if nm1 < k then return false
  if g.min_degree < k then return false
  if k = 1 then return g.is_connected
  if g.is_complete then return decide (k ≤ nm1)
  if g.is_cycle then return decide (k ≤ 2)
  let ip ← g.is_path
  if ip then return decide (k ≤ 1)
  if g.is_star then return decide (k ≤ 1)
  let density_threshold := (g.n_vertices - 1) * k / 2 + 1
  if density_threshold ≤ g.n_edges then return true
  let avg_degree : ℝ := 2 * (g.n_edges : ℝ) / (g.n_vertices : ℝ)
  return decide ((g.first_zagreb_index : ℝ) / (g.n_edges : ℝ) ≥ (k : ℝ) * avg_degree)

/-- `Graph::is_k_connected` (wrapper). -/
noncomputable def is_k_connected (g : Graph) (k : Nat) (use_exact : Bool) :
    Option Bool :=
  if g.is_complete then
    (usizeSub g.n_vertices 1).map fun nm1 => decide (k ≤ nm1)
  else if use_exact then g.is_k_connected_exact k
  else g.is_k_connected_approx k

end Graph

namespace Graph

/-- The key `min_by_key` minimises in `independence_number_approx`: the
number of still-remaining neighbours of `v`. -/
def remDeg (g : Graph) (R : Finset Nat) (v : Nat) : Nat :=
  ((g.adj v).filter fun u => u ∈ R).card

/-- The minimisers `min_by_key` may return (`HashSet` iteration order is
unspecified, so any vertex attaining the minimum is admissible). -/
def minimizers (g : Graph) (R : Finset Nat) : Finset Nat :=
  R.filter fun v => ∀ u ∈ R, remDeg g R v ≤ remDeg g R u

end Graph

/-- One admissible execution of the `independence_number_approx` loop: from
the remaining pool `R` it constructs the independent set `S`, repeatedly
picking some remaining vertex of minimum remaining degree and discarding it
together with its neighbours. -/
inductive GreedyRun (g : Graph) : Finset Nat → Finset Nat → Prop where
  | done : GreedyRun g ∅ ∅
  | pick (R S : Finset Nat) (v : Nat) (hv : v ∈ R)
      (hmin : ∀ u ∈ R, Graph.remDeg g R v ≤ Graph.remDeg g R u)
      (hrest : GreedyRun g (R \ insert v (g.adj v)) S) :
      GreedyRun g R (insert v S)

namespace Graph

/-- Bounded exhaustive check that every admissible greedy execution from
pool `R` picks at least `m` vertices. -/
def allGreedyAtLeast (g : Graph) : Nat → Finset Nat → Nat → Bool
  | _, _, 0 => true
  | 0, _, _ + 1 => false
  | fuel + 1, R, m + 1 =>
    decide (R ≠ ∅) &&
      decide (∀ v ∈ minimizers g R,
        allGreedyAtLeast g fuel (R \ insert v (g.adj v)) m = true)

/-- The exact independence number (largest pairwise non-adjacent vertex
set), used to compare the greedy approximation against. -/
def independenceNumber (g : Graph) : Nat :=
  ((Finset.range g.n_vertices).powerset.filter fun S =>
    ∀ u ∈ S, ∀ v ∈ S, u ≠ v → v ∉ g.adj u).sup Finset.card

/-- `Graph::is_likely_hamiltonian` (with `k = 2` as in the source; the
`f64` square-root threshold term is stated over the reals, the final
`as usize` cast is `Nat.floor`). -/
noncomputable def is_likely_hamiltonian (g : Graph)
    (use_exact_connectivity : Bool) : Option Bool := do
  if g.n_vertices < 3 then return false
  if g.is_complete then return true
  if g.is_cycle then return true
  if g.is_star ∧ 3 < g.n_vertices then return false
  if g.is_petersen then return false
  let conn ← g.is_k_connected 2 use_exact_connectivity
  if !conn then return false
  if g.n_vertices / 2 ≤ g.min_degree then return true
  let part1 := (g.n_vertices - 2 - 1) * g.max_degree * g.max_degree
  let part2 := g.n_edges * g.n_edges / (2 + 1)
  let part3 : ℝ :=
    Real.sqrt ((g.n_vertices - 2 - 1 : Nat) : ℝ) - Real.sqrt (g.min_degree : ℝ)
  let threshold := part1 + part2 + ⌊part3 * part3 * (g.n_edges : ℝ)⌋₊
  return decide (threshold ≤ g.first_zagreb_index)

/-- `Graph::is_likely_traceable` (with `k = 1` as in the source). -/
noncomputable def is_likely_traceable (g : Graph)
    (use_exact_connectivity : Bool) : Option Bool := do
  if g.n_vertices < 2 then return false
  let ham ← g.is_likely_hamiltonian use_exact_connectivity
  if ham then return true
  if g.is_complete then return true
  let ip ← g.is_path
  if ip then return true
  if g.is_star then return true
  if g.is_petersen then return true
  let conn ← g.is_k_connected 1 use_exact_connectivity
  if !conn then return false
  if (g.n_vertices - 1) / 2 ≤ g.min_degree then return true
  if g.n_vertices < 9 then
    return decide ((g.n_vertices - 1) / 2 ≤ g.min_degree)
  let part1 := (g.n_vertices - 1 - 2) * g.max_degree * g.max_degree
  let part2 := g.n_edges * g.n_edges / (1 + 2)
  let part3 : ℝ :=
    Real.sqrt ((g.n_vertices - 1 - 2 : Nat) : ℝ) - Real.sqrt (g.min_degree : ℝ)
  let threshold := part1 + part2 + ⌊part3 * part3 * (g.n_edges : ℝ)⌋₊
  return decide (threshold ≤ g.first_zagreb_index)

/-- `Graph::zagreb_upper_bound`, stated over the reals and parametrised by
the value `beta` produced by the (nondeterministic, tie-break dependent)
greedy `independence_number_approx`. -/
noncomputable def zagreb_upper_bound (g : Graph) (beta : Nat) : ℝ :=
  ((g.n_vertices - beta) * g.max_degree * g.max_degree : Nat) +
    ((g.n_edges * g.n_edges : Nat) : ℝ) / (beta : ℝ) +
    (Real.sqrt ((g.n_vertices - beta : Nat) : ℝ) - Real.sqrt (g.min_degree : ℝ)) *
        (Real.sqrt ((g.n_vertices - beta : Nat) : ℝ) - Real.sqrt (g.min_degree : ℝ)) *
      (g.n_edges : ℝ)

end Graph

/-! ### The concrete graphs named by the specification -/

/-- The standard Petersen construction of the tests: outer 5-cycle, spokes,
inner pentagram. -/
def petersenEdges : List (Nat × Nat) :=
  [(0, 1), (1, 2), (2, 3), (3, 4), (4, 0),
   (0, 5), (1, 6), (2, 7), (3, 8), (4, 9),
   (5, 7), (7, 9), (9, 6), (6, 8), (8, 5)]

def petersenG : Graph := Graph.buildGraph 10 petersenEdges

/-- The edges of the cycle graph Cn: `i -- (i+1) % n`. -/
def cycleEdges (n : Nat) : List (Nat × Nat) :=
  (List.range n).map fun i => (i, (i + 1) % n)

def cycleG (n : Nat) : Graph := Graph.buildGraph n (cycleEdges n)

/-- The complete graph built by adding all `n(n-1)/2` edges, as the tests
do. -/
def completeG (n : Nat) : Graph := Graph.buildGraph n (Graph.vertexPairs n)

/-! ### Data-model invariants -/

/-- The data-model invariants of the design: symmetric adjacency, no
self-loops, all referenced ids in `[0, n)` (so out-of-range vertices have
empty sets), and `n_edges` equal to half the total adjacency membership
count. -/
def GoodGraph (g : Graph) : Prop :=
  (∀ u v, u ∈ g.adj v ↔ v ∈ g.adj u) ∧
    (∀ v, v ∉ g.adj v) ∧
    (∀ u v, u ∈ g.adj v → u < g.n_vertices ∧ v < g.n_vertices) ∧
    2 * g.n_edges = ∑ v ∈ Finset.range g.n_vertices, (g.adj v).card

namespace Graph

lemma mem_insertEdge_adj (g : Graph) {u v : Nat} (huv : u ≠ v) (a b : Nat) :
    a ∈ (g.insertEdge u v).adj b ↔
      a ∈ g.adj b ∨ (b = u ∧ a = v) ∨ (b = v ∧ a = u) := by
  show a ∈ (if b = u then insert v (g.adj b)
      else if b = v then insert u (g.adj b) else g.adj b) ↔ _
  by_cases h1 : b = u
  · subst h1
    rw [if_pos rfl, Finset.mem_insert]
    have : ¬ b = v := huv
    tauto
  · by_cases h2 : b = v
    · subst h2
      rw [if_neg h1, if_pos rfl, Finset.mem_insert]
      tauto
    · rw [if_neg h1, if_neg h2]
      tauto

lemma add_edge_ok_elim {g : Graph} {u v : Nat} {g2 : Graph}
    (h : g.add_edge u v = .ok g2) :
    u < g.n_vertices ∧ v < g.n_vertices ∧ u ≠ v ∧
      ((v ∈ g.adj u ∧ g2 = g) ∨ (v ∉ g.adj u ∧ g2 = g.insertEdge u v)) := by
  unfold add_edge at h
  split_ifs at h with h1 h2 h3
  · push_neg at h1
    exact ⟨h1.1, h1.2, h2, Or.inl ⟨h3, (Except.ok.inj h).symm⟩⟩
  · push_neg at h1
    exact ⟨h1.1, h1.2, h2, Or.inr ⟨h3, (Except.ok.inj h).symm⟩⟩

lemma insertEdge_n_vertices (g : Graph) (u v : Nat) :
    (g.insertEdge u v).n_vertices = g.n_vertices := rfl

end Graph

lemma reachable_good {g : Graph} (h : Reachable g) : GoodGraph g := by
  induction h with
  | new n =>
      refine ⟨fun u v => by simp [Graph.new], fun v => Finset.not_mem_empty v,
        fun u v hu => absurd hu (Finset.not_mem_empty u), ?_⟩
      simp [Graph.new]
  | add g u v g2 _ hok ih =>
      obtain ⟨hu, hv, huv, hcase⟩ := Graph.add_edge_ok_elim hok
      rcases hcase with ⟨_, rfl⟩ | ⟨hmem, rfl⟩
      · exact ih
      · obtain ⟨hsym, hirr, hbound, hcount⟩ := ih
        have hvu : u ∉ g.adj v := fun hm => hmem ((hsym u v).mp hm)
        refine ⟨?_, ?_, ?_, ?_⟩
        · intro a b
          rw [g.mem_insertEdge_adj huv, g.mem_insertEdge_adj huv]
          have := hsym a b
          tauto
        · intro w
          rw [g.mem_insertEdge_adj huv]
          have := hirr w
          have : ¬ (w = u ∧ w = v) := by rintro ⟨rfl, rfl⟩; exact huv rfl
          tauto
        · intro a b hab
          rw [g.mem_insertEdge_adj huv] at hab
          rcases hab with hab | ⟨rfl, rfl⟩ | ⟨rfl, rfl⟩
          · exact hbound a b hab
          · exact ⟨hv, hu⟩
          · exact ⟨hu, hv⟩
        · have hmu : u ∈ Finset.range g.n_vertices := Finset.mem_range.mpr hu
          have hmv : v ∈ (Finset.range g.n_vertices).erase u :=
            Finset.mem_erase.mpr ⟨Ne.symm huv, Finset.mem_range.mpr hv⟩
          have e1 : ∀ f : Nat → Nat, ∑ w ∈ Finset.range g.n_vertices, f w =
              f u + (f v + ∑ w ∈ ((Finset.range g.n_vertices).erase u).erase v, f w) := by
            intro f
            rw [← Finset.add_sum_erase _ f hmu, ← Finset.add_sum_erase _ f hmv]
          have hu2 : ((g.insertEdge u v).adj u).card = (g.adj u).card + 1 := by
            show (if u = u then insert v (g.adj u)
              else if u = v then insert u (g.adj u) else g.adj u).card = _
            rw [if_pos rfl, Finset.card_insert_of_not_mem hmem]
          have hv2 : ((g.insertEdge u v).adj v).card = (g.adj v).card + 1 := by
            show (if v = u then insert v (g.adj v)
              else if v = v then insert u (g.adj v) else g.adj v).card = _
            rw [if_neg (Ne.symm huv), if_pos rfl, Finset.card_insert_of_not_mem hvu]
          have hrest : ∑ w ∈ ((Finset.range g.n_vertices).erase u).erase v,
              ((g.insertEdge u v).adj w).card =
              ∑ w ∈ ((Finset.range g.n_vertices).erase u).erase v, (g.adj w).card := by
            refine Finset.sum_congr rfl fun w hw => ?_
            have hw1 : w ≠ v := (Finset.mem_erase.mp hw).1
            have hw2 : w ≠ u := (Finset.mem_erase.mp (Finset.mem_erase.mp hw).2).1
            show (if w = u then insert v (g.adj w)
              else if w = v then insert u (g.adj w) else g.adj w).card = _
            rw [if_neg hw2, if_neg hw1]
          show 2 * (g.n_edges + 1) =
            ∑ w ∈ Finset.range (g.insertEdge u v).n_vertices, ((g.insertEdge u v).adj w).card
          rw [Graph.insertEdge_n_vertices,
            e1 (fun w => ((g.insertEdge u v).adj w).card),
            e1 (fun w => (g.adj w).card)] at *
          rw [hu2, hv2, hrest]
          omega

namespace Graph

lemma applyEdge_reachable {g : Graph} (hr : Reachable g) (u v : Nat) :
    Reachable (g.applyEdge u v) := by
  unfold applyEdge
  cases h : g.add_edge u v with
  | ok g2 => exact Reachable.add g u v g2 hr h
  | error e => exact hr

lemma add_edge_ok_n_vertices {g g2 : Graph} {u v : Nat}
    (h : g.add_edge u v = .ok g2) : g2.n_vertices = g.n_vertices := by
  obtain ⟨_, _, _, hc⟩ := add_edge_ok_elim h
  rcases hc with ⟨_, rfl⟩ | ⟨_, rfl⟩ <;> rfl

lemma applyEdge_n_vertices (g : Graph) (u v : Nat) :
    (g.applyEdge u v).n_vertices = g.n_vertices := by
  unfold applyEdge
  cases h : g.add_edge u v with
  | ok g2 => exact add_edge_ok_n_vertices h
  | error e => rfl

lemma buildAux_n_vertices (es : List (Nat × Nat)) :
    ∀ g : Graph, (buildAux es g).n_vertices = g.n_vertices := by
  induction es with
  | nil => intro g; rfl
  | cons p es ih =>
      intro g
      show (buildAux es (g.applyEdge p.1 p.2)).n_vertices = _
      rw [ih, applyEdge_n_vertices]

lemma buildAux_reachable (es : List (Nat × Nat)) :
    ∀ {g : Graph}, Reachable g → Reachable (buildAux es g) := by
  induction es with
  | nil => intro g hr; exact hr
  | cons p es ih =>
      intro g hr
      exact ih (applyEdge_reachable hr p.1 p.2)

lemma buildGraph_reachable (n : Nat) (es : List (Nat × Nat)) :
    Reachable (buildGraph n es) :=
  buildAux_reachable es (Reachable.new n)

lemma buildGraph_n_vertices (n : Nat) (es : List (Nat × Nat)) :
    (buildGraph n es).n_vertices = n :=
  buildAux_n_vertices es (new n)

lemma mem_applyEdge_adj {g : Graph} (hg : GoodGraph g) {u v : Nat}
    (hu : u < g.n_vertices) (hv : v < g.n_vertices) (huv : u ≠ v) (a b : Nat) :
    a ∈ (g.applyEdge u v).adj b ↔
      a ∈ g.adj b ∨ (b = u ∧ a = v) ∨ (b = v ∧ a = u) := by
  have hne : ¬(g.n_vertices ≤ u ∨ g.n_vertices ≤ v) := by omega
  unfold applyEdge add_edge
  rw [if_neg hne, if_neg huv]
  by_cases hm : v ∈ g.adj u
  · rw [if_pos hm]
    show a ∈ g.adj b ↔ _
    have hvu : u ∈ g.adj v := (hg.1 u v).mpr hm
    constructor
    · exact Or.inl
    · rintro (h | ⟨rfl, rfl⟩ | ⟨rfl, rfl⟩)
      · exact h
      · exact hm
      · exact hvu
  · rw [if_neg hm]
    show a ∈ (g.insertEdge u v).adj b ↔ _
    exact g.mem_insertEdge_adj huv a b

lemma mem_buildAux_adj (es : List (Nat × Nat)) :
    ∀ g : Graph, Reachable g →
      (∀ p ∈ es, p.1 < g.n_vertices ∧ p.2 < g.n_vertices ∧ p.1 ≠ p.2) →
      ∀ a b, a ∈ (buildAux es g).adj b ↔
        (a ∈ g.adj b ∨ (b, a) ∈ es ∨ (a, b) ∈ es) := by
  induction es with
  | nil => intro g _ _ a b; simp [buildAux]
  | cons p es ih =>
      obtain ⟨pu, pv⟩ := p
      intro g hr hval a b
      obtain ⟨hp1, hp2, hpne⟩ := hval (pu, pv) (List.mem_cons_self _ _)
      have hg := reachable_good hr
      have hr2 : Reachable (g.applyEdge pu pv) := applyEdge_reachable hr pu pv
      have hval2 : ∀ q ∈ es, q.1 < (g.applyEdge pu pv).n_vertices ∧
          q.2 < (g.applyEdge pu pv).n_vertices ∧ q.1 ≠ q.2 := by
        intro q hq
        rw [applyEdge_n_vertices]
        exact hval q (List.mem_cons_of_mem _ hq)
      show a ∈ (buildAux es (g.applyEdge pu pv)).adj b ↔ _
      rw [ih (g.applyEdge pu pv) hr2 hval2 a b,
        mem_applyEdge_adj hg hp1 hp2 hpne a b]
      simp only [List.mem_cons, Prod.mk.injEq]
      tauto

lemma min_degree_le {g : Graph} {v : Nat} (hv : v < g.n_vertices) :
    g.min_degree ≤ (g.adj v).card := by
  have hmem : (g.adj v).card ∈ g.degreeList :=
    List.mem_map.mpr ⟨v, List.mem_range.mpr hv, rfl⟩
  rcases h : g.degreeList.min? with _ | m
  · rw [List.min?_eq_none_iff] at h
    rw [h] at hmem
    cases hmem
  · have := (List.min?_eq_some_iff'.mp h).2 _ hmem
    unfold min_degree
    rw [h]
    exact this

lemma le_max_degree {g : Graph} {v : Nat} (hv : v < g.n_vertices) :
    (g.adj v).card ≤ g.max_degree := by
  have hmem : (g.adj v).card ∈ g.degreeList :=
    List.mem_map.mpr ⟨v, List.mem_range.mpr hv, rfl⟩
  rcases h : g.degreeList.max? with _ | m
  · rw [List.max?_eq_none_iff] at h
    rw [h] at hmem
    cases hmem
  · have := (List.max?_eq_some_iff'.mp h).2 _ hmem
    unfold max_degree
    rw [h]
    exact this

lemma min_degree_const {g : Graph} {c : Nat} (hn : g.n_vertices ≠ 0)
    (h : ∀ v, v < g.n_vertices → (g.adj v).card = c) : g.min_degree = c := by
  have hmem : c ∈ g.degreeList :=
    List.mem_map.mpr ⟨0, List.mem_range.mpr (Nat.pos_of_ne_zero hn),
      h 0 (Nat.pos_of_ne_zero hn)⟩
  have hall : ∀ b ∈ g.degreeList, c ≤ b := by
    intro b hb
    obtain ⟨v, hv, rfl⟩ := List.mem_map.mp hb
    rw [h v (List.mem_range.mp hv)]
  have : g.degreeList.min? = some c :=
    List.min?_eq_some_iff'.mpr ⟨hmem, hall⟩
  unfold min_degree
  rw [this]
  rfl

lemma max_degree_const {g : Graph} {c : Nat} (hn : g.n_vertices ≠ 0)
    (h : ∀ v, v < g.n_vertices → (g.adj v).card = c) : g.max_degree = c := by
  have hmem : c ∈ g.degreeList :=
    List.mem_map.mpr ⟨0, List.mem_range.mpr (Nat.pos_of_ne_zero hn),
      h 0 (Nat.pos_of_ne_zero hn)⟩
  have hall : ∀ b ∈ g.degreeList, b ≤ c := by
    intro b hb
    obtain ⟨v, hv, rfl⟩ := List.mem_map.mp hb
    rw [h v (List.mem_range.mp hv)]
  have : g.degreeList.max? = some c :=
    List.max?_eq_some_iff'.mpr ⟨hmem, hall⟩
  unfold max_degree
  rw [this]
  rfl

end Graph

/-! ### Properties of admissible greedy runs -/

lemma greedy_subset {g : Graph} {R S : Finset Nat} (h : GreedyRun g R S) :
    S ⊆ R := by
  induction h with
  | done => exact Finset.Subset.refl _
  | pick R S v hv hmin hrest ih =>
      intro x hx
      rcases Finset.mem_insert.mp hx with rfl | hx2
      · exact hv
      · exact (Finset.mem_sdiff.mp (ih hx2)).1

lemma greedy_not_mem {g : Graph} {R S : Finset Nat} {v : Nat}
    (h : GreedyRun g (R \ insert v (g.adj v)) S) : v ∉ S := by
  intro hv
  have hm := greedy_subset h hv
  rw [Finset.mem_sdiff] at hm
  exact hm.2 (Finset.mem_insert_self v _)

lemma greedy_empty {g : Graph} {S : Finset Nat} (h : GreedyRun g ∅ S) :
    S = ∅ := by
  cases h with
  | done => rfl
  | pick R S v hv => exact absurd hv (Finset.not_mem_empty v)

lemma greedy_pos {g : Graph} {R S : Finset Nat} (hR : R ≠ ∅)
    (h : GreedyRun g R S) : 1 ≤ S.card := by
  cases h with
  | done => exact absurd rfl hR
  | pick R S v hv hmin hrest =>
      rw [Finset.card_insert_of_not_mem (greedy_not_mem hrest)]
      omega

lemma allGreedyAtLeast_sound {g : Graph} {R S : Finset Nat}
    (h : GreedyRun g R S) :
    ∀ fuel m, Graph.allGreedyAtLeast g fuel R m = true → m ≤ S.card := by
  induction h with
  | done =>
      intro fuel m hall
      cases m with
      | zero => exact Nat.zero_le _
      | succ m =>
          cases fuel with
          | zero => simp [Graph.allGreedyAtLeast] at hall
          | succ fuel => simp [Graph.allGreedyAtLeast] at hall
  | pick R S v hv hmin hrest ih =>
      intro fuel m hall
      cases m with
      | zero => exact Nat.zero_le _
      | succ m =>
          cases fuel with
          | zero => simp [Graph.allGreedyAtLeast] at hall
          | succ fuel =>
              rw [Graph.allGreedyAtLeast, Bool.and_eq_true] at hall
              have h2 := hall.2
              rw [decide_eq_true_eq] at h2
              have hvmin : v ∈ Graph.minimizers g R :=
                Finset.mem_filter.mpr ⟨hv, hmin⟩
              have hm := ih fuel m (h2 v hvmin)
              rw [Finset.card_insert_of_not_mem (greedy_not_mem hrest)]
              omega

lemma greedy_indep {g : Graph} (hg : GoodGraph g) {R S : Finset Nat}
    (h : GreedyRun g R S) : ∀ u ∈ S, ∀ w ∈ S, u ≠ w → w ∉ g.adj u := by
  induction h with
  | done => intro u hu; exact absurd hu (Finset.not_mem_empty u)
  | pick R S v hv hmin hrest ih =>
      intro u hu w hw huw
      rcases Finset.mem_insert.mp hu with rfl | hu2 <;>
        rcases Finset.mem_insert.mp hw with rfl | hw2
      · exact absurd rfl huw
      · have hwR := greedy_subset hrest hw2
        rw [Finset.mem_sdiff] at hwR
        intro hadj
        exact hwR.2 (Finset.mem_insert_of_mem hadj)
      · have huR := greedy_subset hrest hu2
        rw [Finset.mem_sdiff] at huR
        intro hadj
        exact huR.2 (Finset.mem_insert_of_mem ((hg.1 u w).mpr hadj))
      · exact ih u hu2 w hw2 huw

lemma greedy_card_le_independenceNumber {g : Graph} (hg : GoodGraph g)
    {S : Finset Nat} (h : GreedyRun g (Finset.range g.n_vertices) S) :
    S.card ≤ g.independenceNumber := by
  apply Finset.le_sup (f := Finset.card)
  rw [Finset.mem_filter, Finset.mem_powerset]
  exact ⟨greedy_subset h, greedy_indep hg h⟩

/-! ### The Zagreb upper bound (Theorem 3) -/

lemma real_key {β M δ e : ℝ} (hβ : 1 ≤ β) (hM : 0 ≤ M) (hδ : 0 ≤ δ) :
    2 * Real.sqrt δ * Real.sqrt M * e ≤ e * e / β + β * (δ * M) := by
  have hβ0 : (0 : ℝ) < β := by linarith
  have hsβ : 0 < Real.sqrt β := Real.sqrt_pos.mpr hβ0
  have h1 := two_mul_le_add_sq (e / Real.sqrt β)
    (Real.sqrt β * (Real.sqrt δ * Real.sqrt M))
  have e1 : (e / Real.sqrt β) ^ 2 = e * e / β := by
    rw [div_pow, Real.sq_sqrt hβ0.le, sq]
  have e2 : (Real.sqrt β * (Real.sqrt δ * Real.sqrt M)) ^ 2 = β * (δ * M) := by
    rw [mul_pow, mul_pow, Real.sq_sqrt hβ0.le, Real.sq_sqrt hδ, Real.sq_sqrt hM]
  have e3 : 2 * (e / Real.sqrt β) * (Real.sqrt β * (Real.sqrt δ * Real.sqrt M)) =
      2 * Real.sqrt δ * Real.sqrt M * e := by
    field_simp
    ring
  rw [e1, e2, e3] at h1
  exact h1

/-- For an independent set, the degree sum is at most the edge count: each
edge contributes to at most one member of the set. -/
lemma indep_degree_sum_le {g : Graph} (hg : GoodGraph g) {S : Finset Nat}
    (hSr : S ⊆ Finset.range g.n_vertices)
    (hind : ∀ u ∈ S, ∀ w ∈ S, u ≠ w → w ∉ g.adj u) :
    ∑ v ∈ S, (g.adj v).card ≤ g.n_edges := by
  have hswap : (S.sigma fun v => g.adj v).card ≤
      ((Finset.range g.n_vertices \ S).sigma fun v => g.adj v).card := by
    apply Finset.card_le_card_of_injOn (fun x => ⟨x.2, x.1⟩)
    · rintro ⟨v, u⟩ hx
      rw [Finset.mem_sigma] at hx
      obtain ⟨hvS, hu⟩ := hx
      have hbnd := hg.2.2.1 u v hu
      have hvne : v ≠ u := by
        rintro rfl
        exact hg.2.1 v hu
      show (⟨u, v⟩ : (_ : ℕ) × ℕ) ∈
        (Finset.range g.n_vertices \ S).sigma fun v => g.adj v
      rw [Finset.mem_sigma]
      refine ⟨Finset.mem_sdiff.mpr ⟨Finset.mem_range.mpr hbnd.1, ?_⟩,
        (hg.1 u v).mp hu⟩
      intro huS
      exact hind v hvS u huS hvne hu
    · rintro ⟨v1, u1⟩ _ ⟨v2, u2⟩ _ hxy
      have h1 : (⟨u1, v1⟩ : (_ : ℕ) × ℕ) = ⟨u2, v2⟩ := hxy
      injection h1 with ha hb
      subst ha
      subst hb
      rfl
  rw [Finset.card_sigma, Finset.card_sigma] at hswap
  have hsplit : ∑ v ∈ Finset.range g.n_vertices \ S, (g.adj v).card +
      ∑ v ∈ S, (g.adj v).card =
      ∑ v ∈ Finset.range g.n_vertices, (g.adj v).card :=
    Finset.sum_sdiff hSr
  have hcount := hg.2.2.2
  omega

/-- C1: for every graph constructible via `new(n)` and successful `add_edge`
calls, and every admissible tie-breaking outcome of the greedy
`independence_number_approx` (whose size divides in the bound), the first
Zagreb index as a real number is at most `zagreb_upper_bound`; in the
degenerate `n = 0` case the divisor is 0 and the real-valued bound is 0,
matching the index. -/
theorem C1_zagreb_index_le_upper_bound (g : Graph) (S : Finset Nat)
    (hr : Reachable g) (hrun : GreedyRun g (Finset.range g.n_vertices) S) :
    (g.first_zagreb_index : ℝ) ≤ g.zagreb_upper_bound S.card := by
  have hg := reachable_good hr
  unfold Graph.zagreb_upper_bound
  by_cases hn : g.n_vertices = 0
  · have hS : S = ∅ := by
      apply greedy_empty (g := g)
      have h0 : Finset.range g.n_vertices = ∅ := by rw [hn]; rfl
      rwa [h0] at hrun
    have he : g.n_edges = 0 := by
      have h2 := hg.2.2.2
      rw [hn] at h2
      simpa using h2
    have hz : g.first_zagreb_index = 0 := by
      unfold Graph.first_zagreb_index
      rw [hn]
      simp
    rw [hz, hS, he, hn]
    simp
  · have hRne : Finset.range g.n_vertices ≠ ∅ :=
      Finset.nonempty_iff_ne_empty.mp (Finset.nonempty_range_iff.mpr hn)
    have hβ1 : 1 ≤ S.card := greedy_pos hRne hrun
    have hSr : S ⊆ Finset.range g.n_vertices := greedy_subset hrun
    have hind := greedy_indep hg hrun
    have hTcard : (Finset.range g.n_vertices \ S).card = g.n_vertices - S.card := by
      rw [Finset.card_sdiff hSr, Finset.card_range]
    have hdM : ∀ v ∈ S, (g.adj v).card ≤ g.n_vertices - S.card := by
      intro v hv
      have hsub : g.adj v ⊆ Finset.range g.n_vertices \ S := by
        intro a ha
        rw [Finset.mem_sdiff]
        refine ⟨Finset.mem_range.mpr (hg.2.2.1 a v ha).1, ?_⟩
        intro haS
        have hva : v ≠ a := by
          rintro rfl
          exact hg.2.1 v ha
        exact hind v hv a haS hva ha
      calc (g.adj v).card ≤ (Finset.range g.n_vertices \ S).card :=
            Finset.card_le_card hsub
        _ = g.n_vertices - S.card := hTcard
    have hdδ : ∀ v ∈ S, g.min_degree ≤ (g.adj v).card := fun v hv =>
      Graph.min_degree_le (Finset.mem_range.mp (hSr hv))
    have hsum_le : ∑ v ∈ S, (g.adj v).card ≤ g.n_edges :=
      indep_degree_sum_le hg hSr hind
    have hA : ∑ v ∈ Finset.range g.n_vertices \ S, (g.adj v).card * (g.adj v).card ≤
        (g.n_vertices - S.card) * (g.max_degree * g.max_degree) := by
      have hb : ∀ v ∈ Finset.range g.n_vertices \ S,
          (g.adj v).card * (g.adj v).card ≤ g.max_degree * g.max_degree := by
        intro v hv
        have hvr : v < g.n_vertices :=
          Finset.mem_range.mp (Finset.mem_sdiff.mp hv).1
        exact Nat.mul_le_mul (Graph.le_max_degree hvr) (Graph.le_max_degree hvr)
      calc ∑ v ∈ Finset.range g.n_vertices \ S, (g.adj v).card * (g.adj v).card ≤
            (Finset.range g.n_vertices \ S).card • (g.max_degree * g.max_degree) :=
            Finset.sum_le_card_nsmul _ _ _ hb
        _ = (g.n_vertices - S.card) * (g.max_degree * g.max_degree) := by
            rw [smul_eq_mul, hTcard]
    have hsplit : ∑ v ∈ Finset.range g.n_vertices \ S, (g.adj v).card * (g.adj v).card +
        ∑ v ∈ S, (g.adj v).card * (g.adj v).card = g.first_zagreb_index :=
      Finset.sum_sdiff hSr
    have hM0 : (0:ℝ) ≤ ((g.n_vertices - S.card : Nat) : ℝ) := Nat.cast_nonneg _
    have hδ0 : (0:ℝ) ≤ (g.min_degree : ℝ) := Nat.cast_nonneg _
    have hβR : (1:ℝ) ≤ (S.card : ℝ) := by exact_mod_cast hβ1
    have hkey := real_key (e := (g.n_edges : ℝ)) hβR hM0 hδ0
    have hsq : Real.sqrt ((g.n_vertices - S.card : Nat) : ℝ) *
        Real.sqrt ((g.n_vertices - S.card : Nat) : ℝ) =
        ((g.n_vertices - S.card : Nat) : ℝ) := Real.mul_self_sqrt hM0
    have hsd : Real.sqrt (g.min_degree : ℝ) * Real.sqrt (g.min_degree : ℝ) =
        (g.min_degree : ℝ) := Real.mul_self_sqrt hδ0
    have hterm : ∀ v ∈ S, ((g.adj v).card : ℝ) * ((g.adj v).card : ℝ) ≤
        ((g.min_degree : ℝ) + ((g.n_vertices - S.card : Nat) : ℝ)) *
            ((g.adj v).card : ℝ)
          - (g.min_degree : ℝ) * ((g.n_vertices - S.card : Nat) : ℝ) := by
      intro v hv
      have h1 : (g.min_degree : ℝ) ≤ ((g.adj v).card : ℝ) := by
        exact_mod_cast hdδ v hv
      have h2 : ((g.adj v).card : ℝ) ≤ ((g.n_vertices - S.card : Nat) : ℝ) := by
        exact_mod_cast hdM v hv
      nlinarith [mul_nonneg (sub_nonneg.mpr h1) (sub_nonneg.mpr h2)]
    have hB : ∑ v ∈ S, ((g.adj v).card : ℝ) * ((g.adj v).card : ℝ) ≤
        ((g.min_degree : ℝ) + ((g.n_vertices - S.card : Nat) : ℝ)) *
            (∑ v ∈ S, ((g.adj v).card : ℝ))
          - (S.card : ℝ) *
            ((g.min_degree : ℝ) * ((g.n_vertices - S.card : Nat) : ℝ)) := by
      calc ∑ v ∈ S, ((g.adj v).card : ℝ) * ((g.adj v).card : ℝ)
          ≤ ∑ v ∈ S, (((g.min_degree : ℝ) + ((g.n_vertices - S.card : Nat) : ℝ)) *
              ((g.adj v).card : ℝ)
            - (g.min_degree : ℝ) * ((g.n_vertices - S.card : Nat) : ℝ)) :=
            Finset.sum_le_sum hterm
        _ = _ := by
            rw [Finset.sum_sub_distrib, ← Finset.mul_sum, Finset.sum_const,
              nsmul_eq_mul]
    have hAR : ∑ v ∈ Finset.range g.n_vertices \ S,
        ((g.adj v).card : ℝ) * ((g.adj v).card : ℝ) ≤
        ((g.n_vertices - S.card : Nat) : ℝ) *
          ((g.max_degree : ℝ) * (g.max_degree : ℝ)) := by
      exact_mod_cast hA
    have hsumR : ∑ v ∈ S, ((g.adj v).card : ℝ) ≤ (g.n_edges : ℝ) := by
      exact_mod_cast hsum_le
    have hz1R : (g.first_zagreb_index : ℝ) =
        ∑ v ∈ Finset.range g.n_vertices \ S,
          ((g.adj v).card : ℝ) * ((g.adj v).card : ℝ)
        + ∑ v ∈ S, ((g.adj v).card : ℝ) * ((g.adj v).card : ℝ) := by
      exact_mod_cast hsplit.symm
    have hδM0 : (0:ℝ) ≤ (g.min_degree : ℝ) + ((g.n_vertices - S.card : Nat) : ℝ) := by
      linarith
    have hmul : ((g.min_degree : ℝ) + ((g.n_vertices - S.card : Nat) : ℝ)) *
        (∑ v ∈ S, ((g.adj v).card : ℝ)) ≤
        ((g.min_degree : ℝ) + ((g.n_vertices - S.card : Nat) : ℝ)) * (g.n_edges : ℝ) :=
      mul_le_mul_of_nonneg_left hsumR hδM0
    have hpart1 : (((g.n_vertices - S.card) * g.max_degree * g.max_degree : Nat) : ℝ) =
        ((g.n_vertices - S.card : Nat) : ℝ) *
          ((g.max_degree : ℝ) * (g.max_degree : ℝ)) := by
      push_cast
      ring
    have hpart2 : ((g.n_edges * g.n_edges : Nat) : ℝ) =
        (g.n_edges : ℝ) * (g.n_edges : ℝ) := by
      push_cast
      ring
    have hexp : (Real.sqrt ((g.n_vertices - S.card : Nat) : ℝ) -
          Real.sqrt (g.min_degree : ℝ)) *
        (Real.sqrt ((g.n_vertices - S.card : Nat) : ℝ) -
          Real.sqrt (g.min_degree : ℝ)) * (g.n_edges : ℝ) =
        ((g.n_vertices - S.card : Nat) : ℝ) * (g.n_edges : ℝ)
        + (g.min_degree : ℝ) * (g.n_edges : ℝ)
        - 2 * Real.sqrt (g.min_degree : ℝ) *
            Real.sqrt ((g.n_vertices - S.card : Nat) : ℝ) * (g.n_edges : ℝ) := by
      linear_combination (g.n_edges : ℝ) * hsq + (g.n_edges : ℝ) * hsd
    rw [hz1R, hpart1, hpart2, hexp]
    linarith [hAR, hB, hmul, hkey]

/-! ### Complete graphs and the Zagreb index -/

lemma mem_vertexPairs {n a b : Nat} :
    (a, b) ∈ Graph.vertexPairs n ↔ a < b ∧ b < n := by
  unfold Graph.vertexPairs
  simp only [List.mem_flatMap, List.mem_map, List.mem_filter, List.mem_range,
    decide_eq_true_eq, Prod.mk.injEq]
  constructor
  · rintro ⟨s, hs, t, ⟨ht, hst⟩, rfl, rfl⟩
    exact ⟨hst, ht⟩
  · rintro ⟨hab, hb⟩
    exact ⟨a, by omega, b, ⟨hb, hab⟩, rfl, rfl⟩

lemma mem_completeG_adj (n a b : Nat) :
    a ∈ (completeG n).adj b ↔ a < n ∧ b < n ∧ a ≠ b := by
  have hval : ∀ p ∈ Graph.vertexPairs n,
      p.1 < (Graph.new n).n_vertices ∧ p.2 < (Graph.new n).n_vertices ∧
        p.1 ≠ p.2 := by
    rintro ⟨x, y⟩ hp
    rw [mem_vertexPairs] at hp
    have hnn : (Graph.new n).n_vertices = n := rfl
    rw [hnn]
    refine ⟨by omega, by omega, by omega⟩
  have h := Graph.mem_buildAux_adj (Graph.vertexPairs n) (Graph.new n)
    (Reachable.new n) hval a b
  show a ∈ (Graph.buildAux (Graph.vertexPairs n) (Graph.new n)).adj b ↔ _
  rw [h, mem_vertexPairs, mem_vertexPairs]
  simp only [Graph.new, Finset.not_mem_empty, false_or]
  omega

lemma completeG_adj_card {n v : Nat} (hv : v < n) :
    ((completeG n).adj v).card = n - 1 := by
  have h : (completeG n).adj v = (Finset.range n).erase v := by
    ext a
    rw [mem_completeG_adj, Finset.mem_erase, Finset.mem_range]
    omega
  rw [h, Finset.card_erase_of_mem (Finset.mem_range.mpr hv), Finset.card_range]

lemma completeG_n_vertices (n : Nat) : (completeG n).n_vertices = n :=
  Graph.buildGraph_n_vertices n (Graph.vertexPairs n)

/-! ### Cycle graphs -/

lemma mem_cycleEdges {n a b : Nat} :
    (a, b) ∈ cycleEdges n ↔ a < n ∧ b = (a + 1) % n := by
  unfold cycleEdges
  simp only [List.mem_map, List.mem_range, Prod.mk.injEq]
  constructor
  · rintro ⟨i, hi, rfl, rfl⟩
    exact ⟨hi, rfl⟩
  · rintro ⟨ha, rfl⟩
    exact ⟨a, ha, rfl, rfl⟩

lemma succ_mod_eq {n a : Nat} (ha : a < n) :
    (a + 1) % n = if a + 1 = n then 0 else a + 1 := by
  by_cases h : a + 1 = n
  · rw [if_pos h, h, Nat.mod_self]
  · rw [if_neg h, Nat.mod_eq_of_lt (by omega)]

lemma pred_mod_eq {n b : Nat} (hn : 0 < n) (hb : b < n) :
    (b + (n - 1)) % n = if b = 0 then n - 1 else b - 1 := by
  by_cases h : b = 0
  · subst h
    rw [if_pos rfl, Nat.zero_add]
    exact Nat.mod_eq_of_lt (by omega)
  · rw [if_neg h]
    have heq : b + (n - 1) = n + (b - 1) := by omega
    rw [heq, Nat.add_mod_left, Nat.mod_eq_of_lt (by omega)]

lemma mem_cycleG_adj {n : Nat} (hn : 3 ≤ n) (a b : Nat) :
    a ∈ (cycleG n).adj b ↔
      (b < n ∧ a = (b + 1) % n) ∨ (a < n ∧ b = (a + 1) % n) := by
  have hval : ∀ p ∈ cycleEdges n,
      p.1 < (Graph.new n).n_vertices ∧ p.2 < (Graph.new n).n_vertices ∧
        p.1 ≠ p.2 := by
    rintro ⟨x, y⟩ hp
    rw [mem_cycleEdges] at hp
    obtain ⟨hx, rfl⟩ := hp
    have hnn : (Graph.new n).n_vertices = n := rfl
    rw [hnn]
    rw [succ_mod_eq hx]
    split_ifs with h <;> omega
  have h := Graph.mem_buildAux_adj (cycleEdges n) (Graph.new n)
    (Reachable.new n) hval a b
  show a ∈ (Graph.buildAux (cycleEdges n) (Graph.new n)).adj b ↔ _
  rw [h, mem_cycleEdges, mem_cycleEdges]
  simp only [Graph.new, Finset.not_mem_empty, false_or]

lemma cycleG_n_vertices (n : Nat) : (cycleG n).n_vertices = n :=
  Graph.buildGraph_n_vertices n (cycleEdges n)

lemma cycleG_adj_eq {n : Nat} (hn : 3 ≤ n) {b : Nat} (hb : b < n) :
    (cycleG n).adj b = {(b + 1) % n, (b + (n - 1)) % n} := by
  ext a
  rw [mem_cycleG_adj hn, Finset.mem_insert, Finset.mem_singleton]
  constructor
  · rintro (⟨_, rfl⟩ | ⟨ha, rfl⟩)
    · exact Or.inl rfl
    · right
      by_cases h : a + 1 = n
      · have h1 : (a + 1) % n = 0 := by rw [h, Nat.mod_self]
        rw [h1, Nat.zero_add, Nat.mod_eq_of_lt (show n - 1 < n by omega)]
        omega
      · have h1 : (a + 1) % n = a + 1 := Nat.mod_eq_of_lt (by omega)
        rw [h1]
        have h2 : a + 1 + (n - 1) = n + a := by omega
        rw [h2, Nat.add_mod_left, Nat.mod_eq_of_lt (by omega)]
  · rintro (rfl | rfl)
    · exact Or.inl ⟨hb, rfl⟩
    · right
      have hc : (b + (n - 1)) % n < n := Nat.mod_lt _ (by omega)
      refine ⟨hc, ?_⟩
      by_cases h : b = 0
      · have h1 : (b + (n - 1)) % n = n - 1 := by
          rw [h, Nat.zero_add]
          exact Nat.mod_eq_of_lt (by omega)
        rw [h1, show n - 1 + 1 = n by omega, Nat.mod_self]
        omega
      · have h1 : (b + (n - 1)) % n = b - 1 := by
          rw [show b + (n - 1) = n + (b - 1) by omega, Nat.add_mod_left]
          exact Nat.mod_eq_of_lt (by omega)
        rw [h1, show b - 1 + 1 = b by omega, Nat.mod_eq_of_lt hb]

lemma cycleG_degree {n : Nat} (hn : 3 ≤ n) {v : Nat} (hv : v < n) :
    ((cycleG n).adj v).card = 2 := by
  rw [cycleG_adj_eq hn hv]
  rw [Finset.card_insert_of_not_mem, Finset.card_singleton]
  rw [Finset.mem_singleton]
  rw [succ_mod_eq hv, pred_mod_eq (by omega) hv]
  split_ifs <;> omega

lemma cycleG_reachable (n : Nat) : Reachable (cycleG n) :=
  Graph.buildGraph_reachable n (cycleEdges n)

lemma cycleG_min_degree {n : Nat} (hn : 3 ≤ n) : (cycleG n).min_degree = 2 := by
  apply Graph.min_degree_const
  · rw [cycleG_n_vertices]; omega
  · intro v hv
    rw [cycleG_n_vertices] at hv
    exact cycleG_degree hn hv

lemma cycleG_max_degree {n : Nat} (hn : 3 ≤ n) : (cycleG n).max_degree = 2 := by
  apply Graph.max_degree_const
  · rw [cycleG_n_vertices]; omega
  · intro v hv
    rw [cycleG_n_vertices] at hv
    exact cycleG_degree hn hv

lemma cycleG_n_edges {n : Nat} (hn : 3 ≤ n) : (cycleG n).n_edges = n := by
  have hg := reachable_good (cycleG_reachable n)
  have hcount := hg.2.2.2
  rw [cycleG_n_vertices] at hcount
  rw [Finset.sum_congr rfl
    (fun v hv => cycleG_degree hn (Finset.mem_range.mp hv))] at hcount
  rw [Finset.sum_const, smul_eq_mul, Finset.card_range] at hcount
  omega

lemma cycleG_is_cycle {n : Nat} (hn : 3 ≤ n) : (cycleG n).is_cycle = true := by
  unfold Graph.is_cycle
  rw [cycleG_min_degree hn, cycleG_max_degree hn, cycleG_n_edges hn,
    cycleG_n_vertices]
  simp

lemma cycleG_not_complete {n : Nat} (hn : 4 ≤ n) :
    (cycleG n).is_complete = false := by
  unfold Graph.is_complete
  rw [if_neg (by rw [cycleG_n_vertices]; omega)]
  have hf : ((List.range (cycleG n).n_vertices).all fun v =>
      ((cycleG n).adj v).card == (cycleG n).n_vertices - 1) = false := by
    rw [Bool.eq_false_iff]
    intro hall
    rw [List.all_eq_true] at hall
    have h0 := hall 0 (by
      rw [cycleG_n_vertices]
      exact List.mem_range.mpr (by omega))
    rw [beq_iff_eq, cycleG_degree (by omega) (by omega), cycleG_n_vertices] at h0
    omega
  rw [hf, Bool.false_and]

/-! ### BFS reachability closure -/

lemma bfsReach_succ_comm (W : Nat → Finset Nat) :
    ∀ (f : Nat) (X : Finset Nat),
      Graph.bfsReach W (f + 1) X =
        Graph.bfsReach W f X ∪ (Graph.bfsReach W f X).biUnion W := by
  intro f
  induction f with
  | zero => intro X; rfl
  | succ f ih =>
      intro X
      show Graph.bfsReach W (f + 1) (X ∪ X.biUnion W) = _
      rw [ih (X ∪ X.biUnion W)]
      rfl

lemma subset_bfsReach (W : Nat → Finset Nat) :
    ∀ (f : Nat) (X : Finset Nat), X ⊆ Graph.bfsReach W f X := by
  intro f
  induction f with
  | zero => intro X; exact Finset.Subset.refl _
  | succ f ih =>
      intro X
      show X ⊆ Graph.bfsReach W f (X ∪ X.biUnion W)
      exact Finset.Subset.trans Finset.subset_union_left (ih _)

lemma bfsReach_fuel_mono (W : Nat → Finset Nat) {f f2 : Nat} (h : f ≤ f2) :
    ∀ X : Finset Nat, Graph.bfsReach W f X ⊆ Graph.bfsReach W f2 X := by
  induction f2 with
  | zero =>
      intro X
      have : f = 0 := by omega
      rw [this]
  | succ f2 ih =>
      intro X
      by_cases hf : f = f2 + 1
      · rw [hf]
      · have hle : f ≤ f2 := by omega
        refine Finset.Subset.trans (ih hle X) ?_
        rw [bfsReach_succ_comm]
        exact Finset.subset_union_left

lemma bfsReach_step_mem (W : Nat → Finset Nat) {f : Nat} {X : Finset Nat}
    {v w : Nat} (hv : v ∈ Graph.bfsReach W f X) (hw : w ∈ W v) :
    w ∈ Graph.bfsReach W (f + 1) X := by
  rw [bfsReach_succ_comm]
  exact Finset.mem_union_right _ (Finset.mem_biUnion.mpr ⟨v, hv, hw⟩)

lemma bfsReach_subset_range {W : Nat → Finset Nat} {n : Nat}
    (hW : ∀ v, W v ⊆ Finset.range n) :
    ∀ (f : Nat) (X : Finset Nat), X ⊆ Finset.range n →
      Graph.bfsReach W f X ⊆ Finset.range n := by
  intro f
  induction f with
  | zero => intro X hX; exact hX
  | succ f ih =>
      intro X hX
      show Graph.bfsReach W f (X ∪ X.biUnion W) ⊆ _
      apply ih
      intro a ha
      rcases Finset.mem_union.mp ha with h | h
      · exact hX h
      · obtain ⟨v, _, hav⟩ := Finset.mem_biUnion.mp h
        exact hW v hav

lemma cycleG_adj_subset_range {n : Nat} (hn : 3 ≤ n) (v : Nat) :
    (cycleG n).adj v ⊆ Finset.range n := by
  intro a ha
  rw [mem_cycleG_adj hn] at ha
  rw [Finset.mem_range]
  rcases ha with ⟨hb, rfl⟩ | ⟨ha2, _⟩
  · exact Nat.mod_lt _ (by omega)
  · exact ha2

lemma cycleG_reach_all {n : Nat} (hn : 3 ≤ n) :
    ∀ i, i < n → i ∈ Graph.bfsReach (cycleG n).adj n {0} := by
  have key : ∀ j, j < n → j ∈ Graph.bfsReach (cycleG n).adj j {0} := by
    intro j
    induction j with
    | zero => intro _; exact Finset.mem_singleton_self 0
    | succ j ih =>
        intro hj
        have hjn : j < n := by omega
        have hadj : (j + 1) ∈ (cycleG n).adj j := by
          rw [mem_cycleG_adj hn]
          exact Or.inl ⟨hjn, (Nat.mod_eq_of_lt hj).symm⟩
        exact bfsReach_step_mem (cycleG n).adj (ih hjn) hadj
  intro i hi
  exact bfsReach_fuel_mono (cycleG n).adj (by omega) {0} (key i hi)

lemma cycleG_is_connected {n : Nat} (hn : 3 ≤ n) :
    (cycleG n).is_connected = true := by
  unfold Graph.is_connected
  rw [cycleG_n_vertices]
  rw [if_neg (by omega)]
  have heq : Graph.bfsReach (cycleG n).adj n {0} = Finset.range n := by
    apply Finset.Subset.antisymm
    · exact bfsReach_subset_range (cycleG_adj_subset_range hn) n {0}
        (by intro a ha; rw [Finset.mem_singleton.mp ha]; exact Finset.mem_range.mpr (by omega))
    · intro i hi
      exact cycleG_reach_all hn i (Finset.mem_range.mp hi)
  rw [heq, Finset.card_range]
  simp

/-! ### The claims -/

/-- C1 witness at the one-vertex graph: greedy picks vertex 0 and the bound
holds. -/
theorem C1_witness :
    ((Graph.new 1).first_zagreb_index : ℝ) ≤
      (Graph.new 1).zagreb_upper_bound (insert 0 (∅ : Finset Nat)).card := by
  apply C1_zagreb_index_le_upper_bound (Graph.new 1) (insert 0 ∅) (Reachable.new 1)
  refine GreedyRun.pick _ _ 0 (by decide) (by decide) ?_
  have h0 : Finset.range (Graph.new 1).n_vertices \
      insert 0 ((Graph.new 1).adj 0) = ∅ := by decide
  rw [h0]
  exact GreedyRun.done

/-- C2: the standard Petersen construction has Zagreb index 90, is exactly
3-connected per Menger verification, is classified non-Hamiltonian and
traceable under both exactness flags, and every admissible greedy
tie-breaking yields an independent set of size at least 4. -/
theorem C2_petersen :
    petersenG.first_zagreb_index = 90 ∧
    petersenG.is_k_connected 3 true = some true ∧
    (∀ b, petersenG.is_likely_hamiltonian b = some false) ∧
    (∀ b, petersenG.is_likely_traceable b = some true) ∧
    (∀ S, GreedyRun petersenG (Finset.range petersenG.n_vertices) S →
      4 ≤ S.card) := by
  refine ⟨by decide, by decide, ?_, ?_, ?_⟩
  · intro b
    cases b <;> decide
  · intro b
    cases b <;> decide
  · intro S hrun
    exact allGreedyAtLeast_sound hrun 10 4 (by decide)

/-- C3 counterexample: a self-loop request on an out-of-range vertex raises
`InvalidVertex`, not `SelfLoop`, because bounds are checked first. -/
theorem C3_counterexample :
    (Graph.new 3).add_edge 5 5 = Except.error GraphError.invalidVertex ∧
      GraphError.invalidVertex ≠ GraphError.selfLoop := by
  exact ⟨rfl, by decide⟩

/-- C3 amended: `add_edge(u, u)` fails with `SelfLoop` only when `u` is in
range; any out-of-range endpoint (including `u = v ≥ n`) fails with
`InvalidVertex`; failed calls leave the graph unchanged. -/
theorem C3_amended_add_edge_errors (g : Graph) (u v : Nat) :
    (u = v → u < g.n_vertices → g.add_edge u v = .error .selfLoop) ∧
    (g.n_vertices ≤ u ∨ g.n_vertices ≤ v →
      g.add_edge u v = .error .invalidVertex) ∧
    (∀ err, g.add_edge u v = .error err → g.applyEdge u v = g) := by
  refine ⟨?_, ?_, ?_⟩
  · rintro rfl hlt
    unfold Graph.add_edge
    rw [if_neg (by omega), if_pos rfl]
  · intro h
    unfold Graph.add_edge
    rw [if_pos h]
  · intro err herr
    unfold Graph.applyEdge
    rw [herr]

/-- C4: at `n = 0` every k-connectivity entry point evaluates
`n_vertices - 1`, which underflows `usize` (a panic in debug builds),
modelled here as `none`; the claim (and the design) instead require a
well-defined default. -/
theorem C4_k_connectivity_underflows_on_empty_graph :
    (Graph.new 0).is_k_connected 1 true = none ∧
    (Graph.new 0).is_k_connected 1 false = none ∧
    (Graph.new 0).is_k_connected_exact 1 = none ∧
    (Graph.new 0).is_k_connected_approx 1 = none :=
  ⟨by decide, by decide, by decide, by decide⟩

/-- C5: every graph reachable by `new` and `add_edge` calls satisfies the
data-model invariants: symmetric adjacency, no self-loops, all ids in
range, and `n_edges` equal to half the total membership count. -/
theorem C5_reachable_invariants (g : Graph) (hr : Reachable g) :
    (∀ u v, u ∈ g.adj v ↔ v ∈ g.adj u) ∧
    (∀ v, v ∉ g.adj v) ∧
    (∀ u v, u ∈ g.adj v → u < g.n_vertices ∧ v < g.n_vertices) ∧
    2 * g.n_edges = ∑ v ∈ Finset.range g.n_vertices, (g.adj v).card :=
  reachable_good hr

theorem C5_witness :
    (∀ u v, u ∈ petersenG.adj v ↔ v ∈ petersenG.adj u) ∧
    (∀ v, v ∉ petersenG.adj v) ∧
    (∀ u v, u ∈ petersenG.adj v →
      u < petersenG.n_vertices ∧ v < petersenG.n_vertices) ∧
    2 * petersenG.n_edges =
      ∑ v ∈ Finset.range petersenG.n_vertices, (petersenG.adj v).card :=
  C5_reachable_invariants petersenG (Graph.buildGraph_reachable 10 petersenEdges)

/-- C6: after a successful `add_edge(u, v)`, repeating the call (in either
order) succeeds as a no-op on the same graph, and the edge is visible from
both endpoints. -/
theorem C6_add_edge_idempotent_symmetric (g : Graph) (u v : Nat) (g2 : Graph)
    (hr : Reachable g) (hok : g.add_edge u v = .ok g2) :
    g2.add_edge u v = .ok g2 ∧ g2.add_edge v u = .ok g2 ∧
    g2.applyEdge u v = g2 ∧ g2.applyEdge v u = g2 ∧
    v ∈ g2.adj u ∧ u ∈ g2.adj v := by
  obtain ⟨hu, hv, huv, hcase⟩ := Graph.add_edge_ok_elim hok
  have hg2r : Reachable g2 := Reachable.add g u v g2 hr hok
  have hg2 := reachable_good hg2r
  have hnv : g2.n_vertices = g.n_vertices := Graph.add_edge_ok_n_vertices hok
  have hmem : v ∈ g2.adj u := by
    rcases hcase with ⟨hm, rfl⟩ | ⟨hm, rfl⟩
    · exact hm
    · rw [g.mem_insertEdge_adj huv]
      exact Or.inr (Or.inl ⟨rfl, rfl⟩)
  have hmem2 : u ∈ g2.adj v := (hg2.1 u v).mpr hmem
  have hok1 : g2.add_edge u v = .ok g2 := by
    unfold Graph.add_edge
    rw [if_neg (by rw [hnv]; omega), if_neg huv, if_pos hmem]
  have hok2 : g2.add_edge v u = .ok g2 := by
    unfold Graph.add_edge
    rw [if_neg (by rw [hnv]; omega), if_neg (Ne.symm huv), if_pos hmem2]
  refine ⟨hok1, hok2, ?_, ?_, hmem, hmem2⟩
  · unfold Graph.applyEdge
    rw [hok1]
  · unfold Graph.applyEdge
    rw [hok2]

theorem C6_witness :
    ((Graph.new 2).applyEdge 0 1).add_edge 0 1 =
        .ok ((Graph.new 2).applyEdge 0 1) ∧
    ((Graph.new 2).applyEdge 0 1).add_edge 1 0 =
        .ok ((Graph.new 2).applyEdge 0 1) ∧
    ((Graph.new 2).applyEdge 0 1).applyEdge 0 1 = (Graph.new 2).applyEdge 0 1 ∧
    ((Graph.new 2).applyEdge 0 1).applyEdge 1 0 = (Graph.new 2).applyEdge 0 1 ∧
    1 ∈ ((Graph.new 2).applyEdge 0 1).adj 0 ∧
    0 ∈ ((Graph.new 2).applyEdge 0 1).adj 1 :=
  C6_add_edge_idempotent_symmetric (Graph.new 2) 0 1
    ((Graph.new 2).applyEdge 0 1) (Reachable.new 2) rfl

/-- C7: for every cycle graph Cn with n at least 3, the exact k-connectivity
checker answers true for k = 1 and k = 2 and false for k = 3, and the
Hamiltonicity heuristic answers true under both flags. -/
theorem C7_cycle_graphs (n : Nat) (hn : 3 ≤ n) :
    (cycleG n).is_k_connected_exact 1 = some true ∧
    (cycleG n).is_k_connected_exact 2 = some true ∧
    (cycleG n).is_k_connected_exact 3 = some false ∧
    ∀ b, (cycleG n).is_likely_hamiltonian b = some true := by
  by_cases h3 : n = 3
  · subst h3
    refine ⟨by decide, by decide, by decide, ?_⟩
    intro b
    cases b <;> decide
  · have hn4 : 4 ≤ n := by omega
    have h1 : Graph.usizeSub n 1 = some (n - 1) := by
      unfold Graph.usizeSub
      rw [if_pos (by omega)]
    refine ⟨?_, ?_, ?_, ?_⟩
    · unfold Graph.is_k_connected_exact
      rw [cycleG_n_vertices]
      rw [h1, cycleG_min_degree hn, cycleG_not_complete hn4,
        cycleG_is_connected hn]
      simp only [Option.some_bind, Option.bind_eq_bind]
      rw [if_neg (by omega), if_neg (by omega)]
      simp
    · unfold Graph.is_k_connected_exact
      rw [cycleG_n_vertices]
      rw [h1]
      unfold Graph.mengers_theorem_check
      rw [cycleG_n_vertices, cycleG_min_degree hn, cycleG_is_cycle hn,
        cycleG_not_complete hn4]
      simp only [Option.some_bind, Option.bind_eq_bind]
      rw [if_neg (by omega), if_neg (by omega)]
      simp only [Bool.false_eq_true, if_false, if_neg (show ¬(2 = 1) by omega)]
      simp
      omega
    · unfold Graph.is_k_connected_exact
      rw [cycleG_n_vertices]
      rw [h1, cycleG_min_degree hn]
      simp only [Option.some_bind, Option.bind_eq_bind]
      by_cases h4 : n = 4
      · subst h4
        simp
      · rw [if_neg (by omega), if_pos (by omega)]
        simp
    · intro b
      unfold Graph.is_likely_hamiltonian
      rw [cycleG_n_vertices, cycleG_not_complete hn4, cycleG_is_cycle hn]
      rw [if_neg (by omega)]
      simp

theorem C7_witness :
    (cycleG 5).is_k_connected_exact 1 = some true ∧
    (cycleG 5).is_k_connected_exact 2 = some true ∧
    (cycleG 5).is_k_connected_exact 3 = some false ∧
    ∀ b, (cycleG 5).is_likely_hamiltonian b = some true :=
  C7_cycle_graphs 5 (by norm_num)

/-- C9: the first Zagreb index is the sum of squared degrees, and on the
complete graph built from all pairs it equals `n * (n - 1)^2`. -/
theorem C9_zagreb_sum_of_squares :
    (∀ g : Graph, g.first_zagreb_index =
      ∑ v ∈ Finset.range g.n_vertices,
        ((g.degree v).toOption.getD 0) * ((g.degree v).toOption.getD 0)) ∧
    ∀ n : Nat, (completeG n).first_zagreb_index = n * (n - 1) ^ 2 := by
  constructor
  · intro g
    unfold Graph.first_zagreb_index
    refine Finset.sum_congr rfl fun v hv => ?_
    have hv2 : v < g.n_vertices := Finset.mem_range.mp hv
    unfold Graph.degree
    rw [if_neg (by omega)]
    rfl
  · intro n
    unfold Graph.first_zagreb_index
    rw [completeG_n_vertices]
    rw [Finset.sum_congr rfl (fun v hv => by
      rw [completeG_adj_card (Finset.mem_range.mp hv)])]
    rw [Finset.sum_const, smul_eq_mul, Finset.card_range]
    ring

/-- C10: for a constructible graph with at least one vertex, every
admissible greedy outcome is a genuine independent set: pairwise
non-adjacent, of size between 1 and n, and at most the true independence
number. -/
theorem C10_greedy_independent_set (g : Graph) (S : Finset Nat)
    (hr : Reachable g) (hn : 1 ≤ g.n_vertices)
    (hrun : GreedyRun g (Finset.range g.n_vertices) S) :
    (∀ u ∈ S, ∀ w ∈ S, u ≠ w → w ∉ g.adj u) ∧
    1 ≤ S.card ∧ S.card ≤ g.n_vertices ∧
    S.card ≤ g.independenceNumber := by
  have hg := reachable_good hr
  refine ⟨greedy_indep hg hrun, ?_, ?_,
    greedy_card_le_independenceNumber hg hrun⟩
  · refine greedy_pos ?_ hrun
    exact Finset.nonempty_iff_ne_empty.mp
      (Finset.nonempty_range_iff.mpr (by omega))
  · have h := Finset.card_le_card (greedy_subset hrun)
    rwa [Finset.card_range] at h

theorem C10_witness :
    (∀ u ∈ insert 0 (∅ : Finset Nat), ∀ w ∈ insert 0 (∅ : Finset Nat),
      u ≠ w → w ∉ (Graph.new 1).adj u) ∧
    1 ≤ (insert 0 (∅ : Finset Nat)).card ∧
    (insert 0 (∅ : Finset Nat)).card ≤ (Graph.new 1).n_vertices ∧
    (insert 0 (∅ : Finset Nat)).card ≤ (Graph.new 1).independenceNumber := by
  apply C10_greedy_independent_set (Graph.new 1) (insert 0 ∅)
    (Reachable.new 1) (by decide)
  refine GreedyRun.pick _ _ 0 (by decide) (by decide) ?_
  have h0 : Finset.range (Graph.new 1).n_vertices \
      insert 0 ((Graph.new 1).adj 0) = ∅ := by decide
  rw [h0]
  exact GreedyRun.done

/-! ### Bounds on the vertex-disjoint-path search -/

lemma disjointLoop_le (g : Graph) (s t bound : Nat) :
    ∀ (fuel : Nat) (W : Nat → Finset Nat) (count attempts : Nat),
      count < bound →
      Graph.disjointLoop g s t bound fuel W count attempts ≤ bound := by
  intro fuel
  induction fuel with
  | zero =>
      intro W count attempts h
      exact Nat.le_of_lt h
  | succ fuel ih =>
      intro W count attempts h
      rw [Graph.disjointLoop]
      cases hp : g.find_path_in_subgraph W s t with
      | none => exact Nat.le_of_lt h
      | some p =>
          show (if bound ≤ count + 1 ∨ 100 ≤ attempts then count + 1
            else g.disjointLoop s t bound fuel (Graph.removeInternal W p)
              (count + 1) (attempts + 1)) ≤ bound
          by_cases hbr : bound ≤ count + 1 ∨ 100 ≤ attempts
          · rw [if_pos hbr]
            omega
          · rw [if_neg hbr]
            exact ih _ (count + 1) (attempts + 1) (by omega)

lemma bfsAux_some_imp {W : Nat → Finset Nat} {s t bt nv : Nat} :
    ∀ (fuel : Nat) (q : List Nat) (visited : Finset Nat)
      (par : Nat → Option Nat) (p : List Nat),
      (∀ x ∈ q, x = s ∨ ∃ u, x ∈ W u) →
      Graph.bfsAux W s t bt nv fuel q visited par = some p →
      t = s ∨ ∃ u, t ∈ W u := by
  intro fuel
  induction fuel with
  | zero =>
      intro q visited par p _ h
      cases h
  | succ fuel ih =>
      intro q visited par p hq h
      cases q with
      | nil => cases h
      | cons u q2 =>
          by_cases hut : u = t
          · subst hut
            exact hq u (List.mem_cons_self _ _)
          · rw [Graph.bfsAux] at h
            rw [if_neg hut] at h
            refine ih _ _ _ p ?_ h
            intro x hx
            rcases List.mem_append.mp hx with hx1 | hx2
            · exact hq x (List.mem_cons_of_mem _ hx1)
            · right
              have hm := List.mem_filter.mp hx2
              have hx3 := of_decide_eq_true hm.2
              exact ⟨u, hx3.1⟩

/-- If no working-copy set contains `t` and `t ≠ s`, BFS finds no path. -/
lemma findPath_none_of_unreachable {g : Graph} {W : Nat → Finset Nat}
    {s t : Nat} (hst : s ≠ t) (h : ∀ u, t ∉ W u) :
    g.find_path_in_subgraph W s t = none := by
  cases hp : g.find_path_in_subgraph W s t with
  | none => rfl
  | some p =>
      exfalso
      unfold Graph.find_path_in_subgraph at hp
      have hq : ∀ x ∈ [s], x = s ∨ ∃ u, x ∈ W u := by
        intro x hx
        rw [List.mem_singleton] at hx
        exact Or.inl hx
      rcases bfsAux_some_imp _ _ _ _ p hq hp with h1 | ⟨u, h2⟩
      · exact hst h1.symm
      · exact h u h2

/-- If the start vertex has no neighbours in the working copy and `s ≠ t`,
BFS finds no path. -/
lemma findPath_none_of_start_empty {g : Graph} {W : Nat → Finset Nat}
    {s t : Nat} (hst : s ≠ t) (hW : W s = ∅) :
    g.find_path_in_subgraph W s t = none := by
  unfold Graph.find_path_in_subgraph
  rw [Graph.bfsAux]
  rw [if_neg (Ne.symm (by exact fun h => hst h.symm))]
  have hnil : ((List.range g.n_vertices).filter fun v =>
      decide (v ∈ W s ∧ v ∉ ({s} : Finset Nat))) = [] := by
    rw [List.filter_eq_nil_iff]
    intro a _
    rw [hW]
    simp
  rw [hnil]
  cases g.n_vertices with
  | zero => rfl
  | succ m => rfl

lemma is_complete_degrees {g : Graph} (hg : GoodGraph g)
    (h : g.is_complete = true) :
    ∀ v, v < g.n_vertices → (g.adj v).card = g.n_vertices - 1 := by
  intro v hv
  unfold Graph.is_complete at h
  split_ifs at h with h1
  · have hn : g.n_vertices = 1 := by omega
    have hv0 : v = 0 := by omega
    have hempty : g.adj v = ∅ := by
      rw [Finset.eq_empty_iff_forall_not_mem]
      intro a ha
      have hb := hg.2.2.1 a v ha
      have : a = v := by omega
      rw [this] at ha
      exact hg.2.1 v ha
    rw [hempty, Finset.card_empty, hn]
  · rw [Bool.and_eq_true, List.all_eq_true] at h
    have := h.1 v (List.mem_range.mpr hv)
    rwa [beq_iff_eq] at this

lemma is_cycle_parts {g : Graph} (h : g.is_cycle = true) :
    g.min_degree = 2 ∧ g.max_degree = 2 ∧ g.n_edges = g.n_vertices := by
  unfold Graph.is_cycle at h
  rw [Bool.and_eq_true, Bool.and_eq_true, beq_iff_eq, beq_iff_eq,
    beq_iff_eq] at h
  exact ⟨h.1.1, h.1.2, h.2⟩

lemma is_cycle_degrees {g : Graph} (h : g.is_cycle = true) :
    ∀ v, v < g.n_vertices → (g.adj v).card = 2 := by
  obtain ⟨hmin, hmax, _⟩ := is_cycle_parts h
  intro v hv
  have h1 := Graph.min_degree_le hv
  have h2 := Graph.le_max_degree hv
  omega

/-- Counting two disjoint filters: if the lengths add to the whole list,
every element satisfies one of the predicates. -/
lemma two_filter_cover {p q : Nat → Bool} (hpq : ∀ a, ¬(p a = true ∧ q a = true)) :
    ∀ l : List Nat, (l.filter p).length + (l.filter q).length ≤ l.length ∧
      ((l.filter p).length + (l.filter q).length = l.length →
        ∀ a ∈ l, p a = true ∨ q a = true) := by
  intro l
  induction l with
  | nil => exact ⟨Nat.le_refl 0, fun _ a ha => absurd ha (List.not_mem_nil a)⟩
  | cons a l ih =>
      obtain ⟨ih1, ih2⟩ := ih
      by_cases hpa : p a = true
      · have hqa : ¬ q a = true := fun hq => hpq a ⟨hpa, hq⟩
        have hfp : (List.filter p (a :: l)).length =
            (List.filter p l).length + 1 := by
          rw [List.filter_cons, if_pos hpa, List.length_cons]
        have hfq : (List.filter q (a :: l)).length =
            (List.filter q l).length := by
          rw [List.filter_cons, if_neg hqa]
        refine ⟨by rw [hfp, hfq, List.length_cons]; omega, ?_⟩
        intro hlen b hb
        rcases List.mem_cons.mp hb with rfl | hbl
        · exact Or.inl hpa
        · refine ih2 ?_ b hbl
          rw [hfp, hfq, List.length_cons] at hlen
          omega
      · by_cases hqa : q a = true
        · have hfp : (List.filter p (a :: l)).length =
              (List.filter p l).length := by
            rw [List.filter_cons, if_neg hpa]
          have hfq : (List.filter q (a :: l)).length =
              (List.filter q l).length + 1 := by
            rw [List.filter_cons, if_pos hqa, List.length_cons]
          refine ⟨by rw [hfp, hfq, List.length_cons]; omega, ?_⟩
          intro hlen b hb
          rcases List.mem_cons.mp hb with rfl | hbl
          · exact Or.inr hqa
          · refine ih2 ?_ b hbl
            rw [hfp, hfq, List.length_cons] at hlen
            omega
        · have hfp : (List.filter p (a :: l)).length =
              (List.filter p l).length := by
            rw [List.filter_cons, if_neg hpa]
          have hfq : (List.filter q (a :: l)).length =
              (List.filter q l).length := by
            rw [List.filter_cons, if_neg hqa]
          refine ⟨by rw [hfp, hfq, List.length_cons]; omega, ?_⟩
          intro hlen b hb
          rw [hfp, hfq, List.length_cons] at hlen
          exact absurd hlen (by omega)

lemma is_path_parts {g : Graph} (h : g.is_path = some true) :
    ∀ v, v < g.n_vertices → 1 ≤ (g.adj v).card := by
  unfold Graph.is_path at h
  cases hn1 : Graph.usizeSub g.n_vertices 1 with
  | none =>
      rw [hn1] at h
      simp at h
  | some nm1 =>
      rw [hn1] at h
      simp only [Option.pure_def, Option.some_bind, Option.bind_eq_bind] at h
      split_ifs at h with h2 h3
      · simp at h
      · cases hn2 : Graph.usizeSub g.n_vertices 2 with
        | none =>
            rw [hn2] at h
            simp at h
        | some nm2 =>
            rw [hn2] at h
            simp only [Option.pure_def, Option.some_bind, Option.bind_eq_bind,
              Option.some.injEq, beq_iff_eq] at h
            have hnm2 : nm2 = g.n_vertices - 2 := by
              unfold Graph.usizeSub at hn2
              by_cases hle : 2 ≤ g.n_vertices
              · rw [if_pos hle] at hn2
                exact (Option.some.inj hn2).symm
              · rw [if_neg hle] at hn2
                cases hn2
            have hcover := two_filter_cover
              (p := fun v => (g.adj v).card == 1)
              (q := fun v => (g.adj v).card == 2)
              (by
                intro a ha
                rw [beq_iff_eq, beq_iff_eq] at ha
                omega)
              (List.range g.n_vertices)
            have hn2le : 2 ≤ g.n_vertices := by
              have hle : ((List.range g.n_vertices).filter fun v =>
                  (g.adj v).card == 1).length ≤ g.n_vertices := by
                calc ((List.range g.n_vertices).filter fun v =>
                      (g.adj v).card == 1).length
                    ≤ (List.range g.n_vertices).length :=
                      List.length_filter_le _ _
                  _ = g.n_vertices := List.length_range _
              omega
            have hlen : ((List.range g.n_vertices).filter fun v =>
                  (g.adj v).card == 1).length +
                ((List.range g.n_vertices).filter fun v =>
                  (g.adj v).card == 2).length =
                (List.range g.n_vertices).length := by
              rw [List.length_range, h3, h, hnm2]
              omega
            intro v hv
            have hor := hcover.2 hlen v (List.mem_range.mpr hv)
            rcases hor with h5 | h5 <;> rw [beq_iff_eq] at h5 <;> omega
      · simp at h

lemma is_path_isSome {g : Graph} (hn : 1 ≤ g.n_vertices) :
    ∃ b, g.is_path = some b := by
  unfold Graph.is_path
  have h1 : Graph.usizeSub g.n_vertices 1 = some (g.n_vertices - 1) := by
    unfold Graph.usizeSub
    rw [if_pos hn]
  rw [h1]
  simp only [Option.pure_def, Option.some_bind, Option.bind_eq_bind]
  split_ifs with h2 h3
  · exact ⟨false, rfl⟩
  · have hlen : 2 ≤ g.n_vertices := by
      have hle : ((List.range g.n_vertices).filter fun v =>
          (g.adj v).card == 1).length ≤ g.n_vertices := by
        calc ((List.range g.n_vertices).filter fun v =>
              (g.adj v).card == 1).length
            ≤ (List.range g.n_vertices).length := List.length_filter_le _ _
          _ = g.n_vertices := List.length_range _
      omega
    have h4 : Graph.usizeSub g.n_vertices 2 = some (g.n_vertices - 2) := by
      unfold Graph.usizeSub
      rw [if_pos hlen]
    rw [h4]
    exact ⟨_, rfl⟩
  · exact ⟨false, rfl⟩

/-- C8: for distinct valid vertices of a constructible graph,
`find_vertex_disjoint_paths` returns a value, and that value is at most
the minimum of the two endpoint degrees (this covers the complete, cycle
and path fast paths as well as both search loops). -/
theorem C8_disjoint_paths_le_min_degree (g : Graph) (s t : Nat)
    (hr : Reachable g) (hs : s < g.n_vertices) (ht : t < g.n_vertices)
    (hst : s ≠ t) :
    ∃ r, g.find_vertex_disjoint_paths s t = some r ∧
      r ≤ min (g.adj s).card (g.adj t).card := by
  have hg := reachable_good hr
  have hn2 : 2 ≤ g.n_vertices := by omega
  unfold Graph.find_vertex_disjoint_paths
  by_cases hcomp : g.is_complete = true
  · have hds := is_complete_degrees hg hcomp s hs
    have hdt := is_complete_degrees hg hcomp t ht
    have h1 : Graph.usizeSub g.n_vertices 1 = some (g.n_vertices - 1) := by
      unfold Graph.usizeSub
      rw [if_pos (by omega)]
    refine ⟨g.n_vertices - 1, ?_, ?_⟩
    · simp only [hcomp, if_true, h1, Option.pure_def, Option.some_bind,
        Option.bind_eq_bind]
    · rw [hds, hdt]
      omega
  · have hcompf : g.is_complete = false := Bool.eq_false_iff.mpr hcomp
    simp only [hcompf, Bool.false_eq_true, if_false]
    by_cases hcyc : g.is_cycle = true
    · have hds := is_cycle_degrees hcyc s hs
      have hdt := is_cycle_degrees hcyc t ht
      refine ⟨2, ?_, ?_⟩
      · simp only [hcyc, if_true, Option.pure_def]
      · rw [hds, hdt]
        omega
    · have hcycf : g.is_cycle = false := Bool.eq_false_iff.mpr hcyc
      simp only [hcycf, Bool.false_eq_true, if_false]
      obtain ⟨b, hip⟩ := is_path_isSome (g := g) (by omega)
      rw [hip]
      simp only [Option.pure_def, Option.some_bind, Option.bind_eq_bind]
      by_cases hfast : b = true ∧ ((s = 0 ∧ t = g.n_vertices - 1) ∨
          (t = 0 ∧ s = g.n_vertices - 1))
      · rw [if_pos hfast]
        have hipt : g.is_path = some true := by
          rw [hfast.1] at hip
          exact hip
        refine ⟨1, rfl, ?_⟩
        have hds := is_path_parts hipt s hs
        have hdt := is_path_parts hipt t ht
        omega
      · rw [if_neg hfast]
        by_cases hadj : t ∈ g.adj s
        · rw [if_pos hadj]
          have hsadj : s ∈ g.adj t := (hg.1 s t).mpr hadj
          have hcs : 1 ≤ (g.adj s).card := Finset.card_pos.mpr ⟨t, hadj⟩
          have hct : 1 ≤ (g.adj t).card := Finset.card_pos.mpr ⟨s, hsadj⟩
          set maxp := min (g.adj s).card (g.adj t).card with hmaxp
          by_cases hm1 : 2 ≤ maxp
          · refine ⟨_, rfl, ?_⟩
            have hloop := disjointLoop_le g s t (maxp - 1) 102
              (fun x => if x = s then (g.adj x).erase t
                else if x = t then (g.adj x).erase s else g.adj x) 0 0 (by omega)
            omega
          · have hmax1 : maxp = 1 := by omega
            have hnone : g.find_path_in_subgraph (fun x =>
                if x = s then (g.adj x).erase t
                else if x = t then (g.adj x).erase s
                else g.adj x) s t = none := by
              rcases (by omega : (g.adj s).card = 1 ∨ (g.adj t).card = 1) with hc | hc
              · have hadjs : g.adj s = {t} := by
                  obtain ⟨a, ha⟩ := Finset.card_eq_one.mp hc
                  rw [ha] at hadj ⊢
                  rw [Finset.mem_singleton] at hadj
                  rw [hadj]
                apply findPath_none_of_start_empty hst
                rw [if_pos rfl, hadjs, Finset.erase_singleton]
              · have hadjt : g.adj t = {s} := by
                  obtain ⟨a, ha⟩ := Finset.card_eq_one.mp hc
                  rw [ha] at hsadj ⊢
                  rw [Finset.mem_singleton] at hsadj
                  rw [hsadj]
                apply findPath_none_of_unreachable hst
                intro u
                by_cases hu1 : u = s
                · rw [if_pos hu1]
                  exact Finset.not_mem_erase t _
                · by_cases hu2 : u = t
                  · subst hu2
                    rw [if_neg hu1, if_pos rfl, hadjt, Finset.erase_singleton]
                    exact Finset.not_mem_empty u
                  · rw [if_neg hu1, if_neg hu2]
                    intro htu
                    have := (hg.1 t u).mp htu
                    rw [hadjt, Finset.mem_singleton] at this
                    exact hu1 this
            refine ⟨_, rfl, ?_⟩
            rw [Graph.disjointLoop, hnone]
            show 1 + 0 ≤ maxp
            omega
        · rw [if_neg hadj]
          set maxp := min (g.adj s).card (g.adj t).card with hmaxp
          by_cases hm1 : 1 ≤ maxp
          · refine ⟨_, rfl, ?_⟩
            exact disjointLoop_le g s t maxp 102 _ 0 0 (by omega)
          · have hmax0 : maxp = 0 := by omega
            have hnone : g.find_path_in_subgraph g.adj s t = none := by
              rcases (by omega : (g.adj s).card = 0 ∨ (g.adj t).card = 0)
                  with hc | hc
              · exact findPath_none_of_start_empty hst
                  (Finset.card_eq_zero.mp hc)
              · apply findPath_none_of_unreachable hst
                intro u htu
                have := (hg.1 t u).mp htu
                rw [Finset.card_eq_zero.mp hc] at this
                exact Finset.not_mem_empty u this
            refine ⟨_, rfl, ?_⟩
            rw [Graph.disjointLoop, hnone]
            show 0 ≤ maxp
            omega

theorem C8_witness :
    ∃ r, (Graph.buildGraph 2 [(0, 1)]).find_vertex_disjoint_paths 0 1 = some r ∧
      r ≤ min ((Graph.buildGraph 2 [(0, 1)]).adj 0).card
        ((Graph.buildGraph 2 [(0, 1)]).adj 1).card :=
  C8_disjoint_paths_le_min_degree (Graph.buildGraph 2 [(0, 1)]) 0 1
    (Graph.buildGraph_reachable 2 [(0, 1)]) (by decide) (by decide) (by decide)

theorem C3_amended_witness :
    (1 = 2 → 1 < (Graph.new 3).n_vertices →
      (Graph.new 3).add_edge 1 2 = .error .selfLoop) ∧
    ((Graph.new 3).n_vertices ≤ 1 ∨ (Graph.new 3).n_vertices ≤ 2 →
      (Graph.new 3).add_edge 1 2 = .error .invalidVertex) ∧
    (∀ err, (Graph.new 3).add_edge 1 2 = .error err →
      (Graph.new 3).applyEdge 1 2 = Graph.new 3) :=
  C3_amended_add_edge_errors (Graph.new 3) 1 2
